import Mathlib

/-
Shallow embedding of the studydiskv key-value store (diskv.go and the
B-tree index file).  Paths are modelled base-relative as lists of path
components; joining with the OS separator and cleaning is modelled by
splitting every raw segment on the separator and dropping empty and "."
components (".." components are treated as opaque names; no claim below
depends on them).  Unix separator values are used: os.PathSeparator is
a slash and os.PathListSeparator is a colon.  Byte values are lists of
naturals; only their lengths matter to the cache accounting.  The Go
map cache is modelled as an association list with unique keys whose
iteration order (used by the eviction loop) is the list order, one
admissible instance of Go's unspecified map order.  uint64 cache-size
arithmetic is modelled with exact natural subtraction; the proved
invariant cacheSize = sum of cached lengths shows every subtraction in
the code is of a number at most the current size, so Go's wrapping
subtraction, truncated subtraction and exact subtraction agree on all
reachable states.
-/

deriving instance DecidableEq for Except

namespace Diskv

/-- Error taxonomy of the engine (errEmpty, errBadKey, os stat /
not-exist failures, errImportDirectory, and wrapped I/O errors). -/
inductive Err where
  | empty
  | badKey
  | notFound
  | importDirectory
  | io (msg : String)
deriving DecidableEq

/-- PathKey from diskv.go: path segments, filename, and the original
caller-provided key carried through for cache and index updates. -/
structure PathKey where
  path : List String
  fileName : String
  originalKey : String
deriving DecidableEq

/-- Association-list lookup, modelling Go map indexing. -/
def lookupA {α β : Type} [DecidableEq α] : List (α × β) → α → Option β
  | [], _ => none
  | (a, b) :: rest, k => if a = k then some b else lookupA rest k

/-- Association-list removal, modelling Go map delete. -/
def removeA {α β : Type} [DecidableEq α] : List (α × β) → α → List (α × β)
  | [], _ => []
  | (a, b) :: rest, k => if a = k then removeA rest k else (a, b) :: removeA rest k

/-- Association-list store, modelling Go map assignment. -/
def storeA {α β : Type} [DecidableEq α] (l : List (α × β)) (k : α) (v : β) :
    List (α × β) :=
  (k, v) :: removeA l k

/-- The keys of an association list. -/
def keysA {α β : Type} (l : List (α × β)) : List α := l.map Prod.fst

/-- Removal from a plain list (set-style delete). -/
def removeL {α : Type} [DecidableEq α] : List α → α → List α
  | [], _ => []
  | a :: rest, k => if a = k then removeL rest k else a :: removeL rest k

/-- Split a character list on the path separator. -/
def splitSegAux : List Char → List Char → List (List Char)
  | [], acc => [acc.reverse]
  | c :: cs, acc => if c = '/' then acc.reverse :: splitSegAux cs [] else splitSegAux cs (c :: acc)

/-- Path components contributed by one raw segment after joining and
cleaning: split on the separator, drop empty and "." components. -/
def splitSeg (s : String) : List String :=
  ((splitSegAux s.data []).map (fun cs => String.mk cs)).filter
    (fun c => decide (c ≠ "" ∧ c ≠ "."))

/-- Components of filepath.Join applied to a list of raw segments. -/
def cleanPath (l : List String) : List String := (l.map splitSeg).flatten

/-- strings.ContainsRune. -/
def containsChar (s : String) (c : Char) : Bool := s.data.contains c

/-- The filesystem under the base directory: the set of existing
directories and the regular files with their contents, both named by
base-relative component lists ([] is the base directory itself). -/
structure FS where
  dirs : List (List String)
  files : List (List String × List Nat)
deriving DecidableEq

/-- The construction options the modelled claims depend on: the
advanced transform, CacheSizeMax, and whether TempDir is set. -/
structure Config where
  transform : String → PathKey
  cacheSizeMax : Nat
  useTempDir : Bool

/-- The cache map, key to bytes. -/
abbrev Cache := List (String × List Nat)

/-- Engine state: filesystem, cache with its running size, and the
key set held by the configured index. -/
structure DState where
  fs : FS
  cache : Cache
  cacheSize : Nat
  index : List String
deriving DecidableEq

/-- d.transform: apply the advanced transform and record the original key. -/
def transformK (cfg : Config) (key : String) : PathKey :=
  { cfg.transform key with originalKey := key }

/-- d.pathFor: directory of a PathKey (base-relative components). -/
def pathFor (pk : PathKey) : List String := cleanPath pk.path

/-- d.completeFilename: full path of a PathKey's file. -/
def completeFilename (pk : PathKey) : List String :=
  cleanPath pk.path ++ splitSeg pk.fileName

/-- All prefixes of a component path, shortest first ([] is the base). -/
def prefixesOf (p : List String) : List (List String) :=
  (List.range (p.length + 1)).map (fun i => p.take i)

/-- Append a directory if absent. -/
def addDir (ds : List (List String)) (q : List String) : List (List String) :=
  if q ∈ ds then ds else ds ++ [q]

/-- os.MkdirAll: create the directory and all missing ancestors. -/
def mkdirAll (fs : FS) (p : List String) : FS :=
  { fs with dirs := (prefixesOf p).foldl addDir fs.dirs }

/-- A regular file can be created (or renamed into place) at p:
p is not an existing directory and its parent directory exists. -/
def canPlaceFile (fs : FS) (p : List String) : Bool :=
  !(decide (p ∈ fs.dirs)) && decide (p.dropLast ∈ fs.dirs)

/-- Remove the file at p (os.Remove / os.RemoveAll on a file). -/
def removeFileFS (fs : FS) (p : List String) : FS :=
  { fs with files := removeA fs.files p }

/-- Total length of the cached values, the quantity d.cacheSize tracks. -/
def sumLens (c : Cache) : Nat := (c.map (fun e => e.2.length)).sum

/-- d.bustCacheWithLock: if the key is cached, remove it and decrement
the running size by its length (uncacheWithLock inlined). -/
def bustC (c : Cache) (sz : Nat) (k : String) : Cache × Nat :=
  match lookupA c k with
  | some v => (removeA c k, sz - v.length)
  | none => (c, sz)

/-- The eviction loop of d.ensureCacheSpaceWithLock: repeatedly uncache
the next entry (list order models Go's unspecified map order) until the
incoming value fits. -/
def evictLoop : Cache → Nat → Nat → Nat → Cache × Nat
  | [], sz, _, _ => ([], sz)
  | (a, v) :: rest, sz, mx, need =>
    if sz + need ≤ mx then ((a, v) :: rest, sz) else evictLoop rest (sz - v.length) mx need

/-- Outcome of d.cacheWithLock: value inserted; value skipped with a
non-fatal error (oversized value); or the invariant-violation panic. -/
inductive CacheRes where
  | inserted (c : Cache) (sz : Nat)
  | skipped (c : Cache) (sz : Nat)
  | panics
deriving DecidableEq

/-- d.cacheWithLock: bust any prior entry, reject values larger than
CacheSizeMax, evict until the value fits, then insert.  The two panic
checks of the source (in ensureCacheSpaceWithLock and cacheWithLock)
guard the same condition and are modelled as the panics outcome. -/
def cacheWithLockM (c : Cache) (sz mx : Nat) (k : String) (v : List Nat) : CacheRes :=
  let b := bustC c sz k
  if mx < v.length then .skipped b.1 b.2
  else
    let e := evictLoop b.1 b.2 mx v.length
    if e.2 + v.length ≤ mx then .inserted ((k, v) :: e.1) (e.2 + v.length)
    else .panics

/-- BTreeIndex.Insert (set semantics of ReplaceOrInsert). -/
def insertIdx (l : List String) (k : String) : List String :=
  if k ∈ l then l else k :: l

/-- BTreeIndex.Delete. -/
def deleteIdx (l : List String) (k : String) : List String := removeL l k

/-- The illegal-key test of WriteStream: some path segment contains the
OS path separator, or the filename contains the OS path-list separator
(a colon on Unix; this is what the source checks). -/
def illegalKey (cfg : Config) (k : String) : Bool :=
  (transformK cfg k).path.any (fun seg => containsChar seg '/') ||
    containsChar (transformK cfg k).fileName ':'

/-- The validation prefix of WriteStream, before any lock or I/O:
empty keys fail with Empty, illegal keys with BadKey. -/
def keyCheck (cfg : Config) (k : String) : Except Err PathKey :=
  if k.length = 0 then .error .empty
  else if illegalKey cfg k then .error .badKey
  else .ok (transformK cfg k)

/-- d.writeStreamWithLock: ensure the directory, create the key file
(directly at the destination, or in TempDir followed by a rename), then
on success insert into the index and bust the cache.  The value is the
fully drained content of the caller's reader; failures of the byte
pipeline itself are modelled by writeFailingOp below. -/
def writeStreamWithLock (cfg : Config) (s : DState) (pk : PathKey) (v : List Nat) :
    DState × Except Err Unit :=
  let fs1 := mkdirAll s.fs (pathFor pk)
  let p := completeFilename pk
  if canPlaceFile fs1 p then
    let b := bustC s.cache s.cacheSize pk.originalKey
    ({ fs := { dirs := fs1.dirs, files := storeA fs1.files p v },
       cache := b.1, cacheSize := b.2,
       index := insertIdx s.index pk.originalKey }, .ok ())
  else
    ({ s with fs := fs1 }, .error (.io (if cfg.useTempDir then "rename" else "open file")))

/-- Write / WriteStream with a fully drained reader. -/
def writeOp (cfg : Config) (s : DState) (k : String) (v : List Nat) :
    DState × Except Err Unit :=
  match keyCheck cfg k with
  | .error e => (s, .error e)
  | .ok pk => writeStreamWithLock cfg s pk v

/-- The three byte-pipeline failure points of writeStreamWithLock that
occur after the key file is opened: io.Copy of the caller's reader, the
compression writer's Close, and the fsync. -/
inductive WriteFailStage where
  | copyErr
  | closeErr
  | syncErr
deriving DecidableEq

/-- The operation prefix the source wraps each failure with. -/
def stageMsg : WriteFailStage → String
  | .copyErr => "i/o copy"
  | .closeErr => "compression close"
  | .syncErr => "file sync"

/-- WriteStream whose byte pipeline fails at the given stage after the
key file was opened.  With TempDir unset the file was opened (and
truncated) at the destination and os.Remove deletes it there; with
TempDir set only the staged temp file is deleted. -/
def writeFailingOp (cfg : Config) (s : DState) (k : String) (st : WriteFailStage) :
    DState × Except Err Unit :=
  match keyCheck cfg k with
  | .error e => (s, .error e)
  | .ok pk =>
    let fs1 := mkdirAll s.fs (pathFor pk)
    let p := completeFilename pk
    if cfg.useTempDir then
      ({ s with fs := fs1 }, .error (.io (stageMsg st)))
    else if canPlaceFile fs1 p then
      ({ s with fs := { dirs := fs1.dirs, files := removeA fs1.files p } },
       .error (.io (stageMsg st)))
    else
      ({ s with fs := fs1 }, .error (.io "open file"))

/-- d.readWithRLock followed by the caller draining the stream to EOF:
stat the file (a directory yields os.ErrNotExist), then read it; with
CacheSizeMax positive the siphon installs the bytes into the cache at
EOF (cacheWithoutLock, whose error the siphon discards), otherwise a
plain closing reader is used and the cache is untouched. -/
def readWithRLock (cfg : Config) (s : DState) (pk : PathKey) (k : String) :
    DState × Except Err (List Nat) :=
  let p := completeFilename pk
  if p ∈ s.fs.dirs then (s, .error .notFound)
  else
    match lookupA s.fs.files p with
    | none => (s, .error (.io "stat"))
    | some v =>
      if cfg.cacheSizeMax = 0 then (s, .ok v)
      else
        match cacheWithLockM s.cache s.cacheSize cfg.cacheSizeMax k v with
        | .inserted c sz => ({ s with cache := c, cacheSize := sz }, .ok v)
        | .skipped c sz => ({ s with cache := c, cacheSize := sz }, .ok v)
        | .panics => (s, .error (.io "panic"))

/-- Read (ReadStream with direct=false, fully drained): a cache hit
returns the cached bytes unchanged, a miss reads from disk. -/
def readOp (cfg : Config) (s : DState) (k : String) : DState × Except Err (List Nat) :=
  let pk := transformK cfg k
  match lookupA s.cache k with
  | some v => (s, .ok v)
  | none => readWithRLock cfg s pk k

/-- ReadStream with direct=true, fully drained: a cache hit schedules
an asynchronous uncache of the hit entry and reads from disk anyway.
The deferred uncache is modelled as completing before the disk read,
the sequentialisation of the claims' sequential operation model. -/
def readStreamDirectOp (cfg : Config) (s : DState) (k : String) :
    DState × Except Err (List Nat) :=
  let pk := transformK cfg k
  let b := bustC s.cache s.cacheSize k
  readWithRLock cfg { s with cache := b.1, cacheSize := b.2 } pk k

/-- True when a regular file exists at p. -/
def hasFileAt (fs : FS) (p : List String) : Bool := (lookupA fs.files p).isSome

/-- q is an immediate child path of p. -/
def isChildOf (p q : List String) : Bool :=
  q.length == p.length + 1 && decide (q.take p.length = p)

/-- filepath.Glob(dir/*) finds at least one entry: the directory has an
immediate child directory or file. -/
def hasChild (fs : FS) (p : List String) : Bool :=
  fs.dirs.any (fun d => isChildOf p d) || fs.files.any (fun f => isChildOf p f.1)

/-- os.Remove of an (empty) directory. -/
def removeDirFS (fs : FS) (p : List String) : FS :=
  { fs with dirs := removeL fs.dirs p }

/-- The directories d.pruneDirsWithLock visits, deepest first: for i in
range, the join of the first (length - i) raw path segments. -/
def prunePrefixes (path : List String) : List (List String) :=
  (List.range path.length).map (fun i => cleanPath (path.take (path.length - i)))

/-- The loop of d.pruneDirsWithLock: stat the directory (a missing one
is a returned error, a regular file there is the corrupt-dirstate
panic), stop at the first directory with a child, otherwise remove it
and continue shallower. -/
def pruneLoop (fs : FS) : List (List String) → FS × Option Err
  | [] => (fs, none)
  | p :: rest =>
    if p ∈ fs.dirs then
      if hasChild fs p then (fs, none)
      else pruneLoop (removeDirFS fs p) rest
    else if hasFileAt fs p then (fs, some (.io "corrupt dirstate"))
    else (fs, some (.io "stat"))

/-- Specification-side pruning walk, transcribed from the spec text:
visit the given directories deepest to shallowest, remove each empty
one, stop at the first non-empty directory. -/
def pruneSpecWalk (fs : FS) : List (List String) → FS
  | [] => fs
  | p :: rest => if hasChild fs p then fs else pruneSpecWalk (removeDirFS fs p) rest

/-- Erase: bust the cache and delete the key from the index first, then
stat the file (a directory target is BadKey, a missing one surfaces the
stat error), remove it and prune the now-possibly-empty parent
directories (the prune result error is discarded by the source). -/
def eraseOp (cfg : Config) (s : DState) (k : String) : DState × Except Err Unit :=
  let pk := transformK cfg k
  let b := bustC s.cache s.cacheSize k
  let s1 : DState := { s with cache := b.1, cacheSize := b.2, index := deleteIdx s.index k }
  let p := completeFilename pk
  if p ∈ s.fs.dirs then (s1, .error .badKey)
  else
    match lookupA s.fs.files p with
    | none => (s1, .error (.io "stat"))
    | some _ =>
      let fs1 := removeFileFS s.fs p
      ({ s1 with fs := (pruneLoop fs1 (prunePrefixes pk.path)).1 }, .ok ())

/-- EraseAll: empty the cache and its size counter and remove the base
directory tree; the index is not touched by the source. -/
def eraseAllOp (s : DState) : DState × Except Err Unit :=
  ({ fs := { dirs := [], files := [] }, cache := [], cacheSize := 0, index := s.index },
   .ok ())

/-- d.Import of a regular source file with the given contents.  move
and renameOk model the move flag and whether syscall.Rename is usable
(renameOk false is the EXDEV cross-filesystem case, which falls back to
the stream copy).  The successful-rename path busts the cache and
returns without touching the index; the copy path goes through
writeStreamWithLock.  Removal of the source file lies outside the
modelled store state. -/
def importOp (cfg : Config) (s : DState) (src : List Nat) (dstKey : String)
    (move renameOk : Bool) : DState × Except Err Unit :=
  if dstKey = "" then (s, .error .empty)
  else
    let pk := transformK cfg dstKey
    let fs1 := mkdirAll s.fs (pathFor pk)
    let s1 : DState := { s with fs := fs1 }
    let p := completeFilename pk
    if move && renameOk then
      if canPlaceFile fs1 p then
        let b := bustC s1.cache s1.cacheSize dstKey
        ({ s1 with fs := { dirs := fs1.dirs, files := storeA fs1.files p src },
                   cache := b.1, cacheSize := b.2 }, .ok ())
      else (s1, .error (.io "rename"))
    else writeStreamWithLock cfg s1 pk src

/-- One engine operation (an undrained ReadStream leaves the cache
untouched and is omitted; Read covers the drained stream). -/
inductive Op where
  | writeK (k : String) (v : List Nat)
  | writeFailK (k : String) (st : WriteFailStage)
  | readK (k : String)
  | readDirectK (k : String)
  | eraseK (k : String)
  | eraseAllK
  | importK (src : List Nat) (k : String) (move renameOk : Bool)

/-- The state after one completed operation. -/
def applyOp (cfg : Config) (s : DState) : Op → DState
  | .writeK k v => (writeOp cfg s k v).1
  | .writeFailK k st => (writeFailingOp cfg s k st).1
  | .readK k => (readOp cfg s k).1
  | .readDirectK k => (readStreamDirectOp cfg s k).1
  | .eraseK k => (eraseOp cfg s k).1
  | .eraseAllK => (eraseAllOp s).1
  | .importK src k mv ro => (importOp cfg s src k mv ro).1

/-- The state after a sequence of completed operations. -/
def applyOps (cfg : Config) (s : DState) : List Op → DState
  | [] => s
  | op :: rest => applyOps cfg (applyOp cfg s op) rest

/-- The state New() constructs: no base directory yet, empty cache,
zero size, empty index. -/
def initState : DState :=
  { fs := { dirs := [], files := [] }, cache := [], cacheSize := 0, index := [] }

/-- defaultAdvancedTransform: empty path, filename equal to the key. -/
def defaultTransform (s : String) : PathKey :=
  { path := [], fileName := s, originalKey := "" }

/-- A configuration with the default transform, CacheSizeMax 1024 and
no TempDir, as in the repository's tests. -/
def cfg0 : Config :=
  { transform := defaultTransform, cacheSizeMax := 1024, useTempDir := false }

/-- A configuration whose transform nests every key two directories
deep, exercising directory pruning. -/
def cfgNest : Config :=
  { transform := fun s => { path := ["d1", "d2"], fileName := s, originalKey := "" },
    cacheSizeMax := 1024, useTempDir := false }

/-- A configuration whose transform has the non-empty path ["", "a"]:
both segments pass the separator checks, the join of the full path is
the directory a, and the join of the first segment alone cleans to the
base directory itself, so the pruning walk of Erase visits the base. -/
def cfgBase : Config :=
  { transform := fun s => { path := ["", "a"], fileName := s, originalKey := "" },
    cacheSizeMax := 1024, useTempDir := false }

/-- Cache bookkeeping well-formedness: distinct keys and a size counter
equal to the sum of the cached value lengths. -/
def cacheWF (c : Cache) (sz : Nat) : Prop :=
  (keysA c).Nodup ∧ sz = sumLens c

/-- The cache invariant of the spec: well-formed bookkeeping and a size
within the configured budget. -/
def cacheInv (cfg : Config) (s : DState) : Prop :=
  cacheWF s.cache s.cacheSize ∧ s.cacheSize ≤ cfg.cacheSizeMax

/-- Go byte-wise string comparison (strLess of the tests), on code
points; it agrees with Go on ASCII keys. -/
def charListLt : List Char → List Char → Bool
  | [], [] => false
  | [], _ :: _ => true
  | _ :: _, [] => false
  | a :: as, b :: bs =>
    if a.val < b.val then true else if b.val < a.val then false else charListLt as bs

/-- The tests' LessFunction. -/
def strLess (a b : String) : Bool := charListLt a.data b.data

/-- The iterator of BTreeIndex.Keys: append each visited key, continue
while fewer than n keys are collected (so even n = 0 yields one key
before the iterator first reports false). -/
def ascTake : List String → Nat → List String
  | [], _ => []
  | x :: xs, n => x :: (if n ≤ 1 then [] else ascTake xs (n - 1))

/-- BTreeIndex.Keys over the tree's in-order key list t (sorted by
less): with an empty or member from, restart at the smallest key with
skipFirst false; otherwise ascend from from and drop the first
collected key.  Membership and the ascend bound use only the tree's
less function, as the B-tree does. -/
def btreeIndexKeys (less : String → String → Bool) (t : List String) (fr : String)
    (n : Nat) : List String :=
  if t.length = 0 then []
  else if fr.length = 0 || t.any (fun k => !less k fr && !less fr k) then ascTake t n
  else
    let keys := ascTake (t.filter (fun k => !less k fr)) n
    if 0 < keys.length then keys.drop 1 else keys

theorem keysA_cons {α β : Type} (a : α) (b : β) (l : List (α × β)) :
    keysA ((a, b) :: l) = a :: keysA l := rfl

theorem sumLens_cons (a : String) (v : List Nat) (c : Cache) :
    sumLens ((a, v) :: c) = v.length + sumLens c := by
  simp [sumLens]

theorem lookupA_none_of_not_mem {α β : Type} [DecidableEq α] {l : List (α × β)} {k : α}
    (h : k ∉ keysA l) : lookupA l k = none := by
  induction l with
  | nil => rfl
  | cons e rest ih =>
    obtain ⟨a, b⟩ := e
    rw [keysA_cons, List.mem_cons] at h
    push_neg at h
    rw [lookupA, if_neg (fun hak => h.1 hak.symm)]
    exact ih h.2

theorem lookupA_isSome_of_mem {α β : Type} [DecidableEq α] {l : List (α × β)} {k : α}
    (h : k ∈ keysA l) : (lookupA l k).isSome := by
  induction l with
  | nil => simp [keysA] at h
  | cons e rest ih =>
    obtain ⟨a, b⟩ := e
    by_cases hak : a = k
    · simp [lookupA, hak]
    · rw [keysA_cons, List.mem_cons] at h
      rw [lookupA, if_neg hak]
      exact ih (h.resolve_left (fun hk => hak hk.symm))

theorem not_mem_of_lookupA_none {α β : Type} [DecidableEq α] {l : List (α × β)} {k : α}
    (h : lookupA l k = none) : k ∉ keysA l := by
  intro hm
  have := lookupA_isSome_of_mem hm
  rw [h] at this
  exact Bool.noConfusion this

theorem lookupA_removeA_self {α β : Type} [DecidableEq α] (l : List (α × β)) (k : α) :
    lookupA (removeA l k) k = none := by
  induction l with
  | nil => rfl
  | cons e rest ih =>
    obtain ⟨a, b⟩ := e
    by_cases hak : a = k
    · rw [removeA, if_pos hak]; exact ih
    · rw [removeA, if_neg hak, lookupA, if_neg hak]; exact ih

theorem removeA_eq_of_lookupA_none {α β : Type} [DecidableEq α] {l : List (α × β)} {k : α}
    (h : lookupA l k = none) : removeA l k = l := by
  induction l with
  | nil => rfl
  | cons e rest ih =>
    obtain ⟨a, b⟩ := e
    by_cases hak : a = k
    · rw [lookupA, if_pos hak] at h; exact absurd h (by simp)
    · rw [lookupA, if_neg hak] at h
      rw [removeA, if_neg hak, ih h]

theorem keysA_removeA_sublist {α β : Type} [DecidableEq α] (l : List (α × β)) (k : α) :
    (keysA (removeA l k)).Sublist (keysA l) := by
  induction l with
  | nil => exact List.Sublist.refl _
  | cons e rest ih =>
    obtain ⟨a, b⟩ := e
    by_cases hak : a = k
    · rw [removeA, if_pos hak, keysA_cons]
      exact ih.trans (List.sublist_cons_self _ _)
    · rw [removeA, if_neg hak, keysA_cons, keysA_cons]
      exact ih.cons₂ a

theorem nodup_keysA_removeA {α β : Type} [DecidableEq α] {l : List (α × β)} (k : α)
    (h : (keysA l).Nodup) : (keysA (removeA l k)).Nodup :=
  h.sublist (keysA_removeA_sublist l k)

theorem sumLens_removeA {c : Cache} {k : String} {v : List Nat}
    (hnd : (keysA c).Nodup) (hv : lookupA c k = some v) :
    sumLens (removeA c k) + v.length = sumLens c := by
  induction c with
  | nil => exact absurd hv (by simp [lookupA])
  | cons e rest ih =>
    obtain ⟨a, b⟩ := e
    rw [keysA_cons, List.nodup_cons] at hnd
    by_cases hak : a = k
    · rw [lookupA, if_pos hak] at hv
      injection hv with hv
      subst hv
      have hnm : k ∉ keysA rest := hak ▸ hnd.1
      rw [removeA, if_pos hak, removeA_eq_of_lookupA_none (lookupA_none_of_not_mem hnm),
        sumLens_cons]
      omega
    · rw [lookupA, if_neg hak] at hv
      rw [removeA, if_neg hak, sumLens_cons, sumLens_cons]
      have := ih hnd.2 hv
      omega

theorem bustC_spec {c : Cache} {sz : Nat} (k : String) (h : cacheWF c sz) :
    cacheWF (bustC c sz k).1 (bustC c sz k).2 ∧ (bustC c sz k).2 ≤ sz ∧
      lookupA (bustC c sz k).1 k = none := by
  obtain ⟨hnd, hsz⟩ := h
  cases hl : lookupA c k with
  | none => simp only [bustC, hl]; exact ⟨⟨hnd, hsz⟩, le_refl _, trivial⟩
  | some v =>
    have hsum := sumLens_removeA hnd hl
    simp only [bustC, hl]
    exact ⟨⟨nodup_keysA_removeA k hnd, by omega⟩, by omega, lookupA_removeA_self c k⟩

theorem evictLoop_spec : ∀ (c : Cache) (sz mx need : Nat), cacheWF c sz →
    cacheWF (evictLoop c sz mx need).1 (evictLoop c sz mx need).2 ∧
      ((evictLoop c sz mx need).2 + need ≤ mx ∨ (evictLoop c sz mx need).1 = []) ∧
      (keysA (evictLoop c sz mx need).1).Sublist (keysA c) ∧
      (evictLoop c sz mx need).2 ≤ sz
  | [], sz, mx, need, h => by
    exact ⟨h, Or.inr rfl, List.Sublist.refl _, le_refl _⟩
  | (a, v) :: rest, sz, mx, need, h => by
    obtain ⟨hnd, hsz⟩ := h
    rw [sumLens_cons] at hsz
    rw [keysA_cons, List.nodup_cons] at hnd
    by_cases hs : sz + need ≤ mx
    · rw [evictLoop, if_pos hs]
      exact ⟨⟨List.nodup_cons.mpr hnd, by rw [sumLens_cons]; omega⟩, Or.inl hs,
        List.Sublist.refl _, le_refl _⟩
    · rw [evictLoop, if_neg hs]
      have ih := evictLoop_spec rest (sz - v.length) mx need ⟨hnd.2, by omega⟩
      exact ⟨ih.1, ih.2.1, ih.2.2.1.trans (List.sublist_cons_self _ _), by omega⟩

theorem cacheM_inserted_spec {c : Cache} {sz mx : Nat} {k : String} {v : List Nat}
    {c2 : Cache} {sz2 : Nat} (h : cacheWF c sz)
    (hr : cacheWithLockM c sz mx k v = .inserted c2 sz2) :
    cacheWF c2 sz2 ∧ sz2 ≤ mx ∧ lookupA c2 k = some v := by
  have hb := bustC_spec k h
  unfold cacheWithLockM at hr
  by_cases hmx : mx < v.length
  · rw [if_pos hmx] at hr; exact absurd hr (by simp)
  · rw [if_neg hmx] at hr
    have he := evictLoop_spec (bustC c sz k).1 (bustC c sz k).2 mx v.length hb.1
    by_cases hfit :
        (evictLoop (bustC c sz k).1 (bustC c sz k).2 mx v.length).2 + v.length ≤ mx
    · rw [if_pos hfit] at hr
      injection hr with h1 h2
      subst h1; subst h2
      have hknm : k ∉ keysA (evictLoop (bustC c sz k).1 (bustC c sz k).2 mx v.length).1 :=
        fun hm => not_mem_of_lookupA_none hb.2.2 (he.2.2.1.subset hm)
      refine ⟨⟨?_, ?_⟩, hfit, by rw [lookupA, if_pos rfl]⟩
      · rw [keysA_cons]; exact List.nodup_cons.mpr ⟨hknm, he.1.1⟩
      · have := he.1.2; rw [sumLens_cons]; omega
    · rw [if_neg hfit] at hr; exact absurd hr (by simp)

theorem cacheM_skipped_spec {c : Cache} {sz mx : Nat} {k : String} {v : List Nat}
    {c2 : Cache} {sz2 : Nat} (h : cacheWF c sz)
    (hr : cacheWithLockM c sz mx k v = .skipped c2 sz2) :
    cacheWF c2 sz2 ∧ sz2 ≤ sz := by
  have hb := bustC_spec k h
  unfold cacheWithLockM at hr
  by_cases hmx : mx < v.length
  · rw [if_pos hmx] at hr
    injection hr with h1 h2
    subst h1; subst h2
    exact ⟨hb.1, hb.2.1⟩
  · rw [if_neg hmx] at hr
    by_cases hfit :
        (evictLoop (bustC c sz k).1 (bustC c sz k).2 mx v.length).2 + v.length ≤ mx
    · rw [if_pos hfit] at hr; exact absurd hr (by simp)
    · rw [if_neg hfit] at hr; exact absurd hr (by simp)

theorem cacheM_not_panics {c : Cache} {sz mx : Nat} (k : String) (v : List Nat)
    (h : cacheWF c sz) : cacheWithLockM c sz mx k v ≠ .panics := by
  have hb := bustC_spec k h
  unfold cacheWithLockM
  by_cases hmx : mx < v.length
  · rw [if_pos hmx]; simp
  · rw [if_neg hmx]
    have he := evictLoop_spec (bustC c sz k).1 (bustC c sz k).2 mx v.length hb.1
    have hfit : (evictLoop (bustC c sz k).1 (bustC c sz k).2 mx v.length).2 + v.length ≤ mx := by
      rcases he.2.1 with h1 | h1
      · exact h1
      · have : (evictLoop (bustC c sz k).1 (bustC c sz k).2 mx v.length).2 =
            sumLens (evictLoop (bustC c sz k).1 (bustC c sz k).2 mx v.length).1 := he.1.2
        rw [h1] at this
        simp [sumLens] at this
        omega
    rw [if_pos hfit]; simp

theorem cacheInv_mk {cfg : Config} {s : DState} (h : cacheInv cfg s)
    (fs1 : FS) (i1 : List String) :
    cacheInv cfg { s with fs := fs1, index := i1 } := h

theorem readWithRLock_cacheInv (cfg : Config) {s : DState} (pk : PathKey) (k : String)
    (h : cacheInv cfg s) : cacheInv cfg (readWithRLock cfg s pk k).1 := by
  unfold readWithRLock
  by_cases hd : completeFilename pk ∈ s.fs.dirs
  · rw [if_pos hd]; exact h
  · rw [if_neg hd]
    cases hf : lookupA s.fs.files (completeFilename pk) with
    | none => exact h
    | some v =>
      simp only
      by_cases hz : cfg.cacheSizeMax = 0
      · rw [if_pos hz]; exact h
      · rw [if_neg hz]
        cases hr : cacheWithLockM s.cache s.cacheSize cfg.cacheSizeMax k v with
        | inserted c2 sz2 =>
          have := cacheM_inserted_spec h.1 hr
          exact ⟨this.1, this.2.1⟩
        | skipped c2 sz2 =>
          have := cacheM_skipped_spec h.1 hr
          exact ⟨this.1, le_trans this.2 h.2⟩
        | panics => exact h

theorem writeStreamWithLock_cacheInv (cfg : Config) {s : DState} (pk : PathKey)
    (v : List Nat) (h : cacheInv cfg s) :
    cacheInv cfg (writeStreamWithLock cfg s pk v).1 := by
  unfold writeStreamWithLock
  by_cases hc : canPlaceFile (mkdirAll s.fs (pathFor pk)) (completeFilename pk) = true
  · rw [if_pos hc]
    have hb := bustC_spec pk.originalKey h.1
    exact ⟨hb.1, le_trans hb.2.1 h.2⟩
  · rw [if_neg hc]; exact h

theorem applyOp_cacheInv (cfg : Config) {s : DState} (op : Op) (h : cacheInv cfg s) :
    cacheInv cfg (applyOp cfg s op) := by
  cases op with
  | writeK k v =>
    show cacheInv cfg (writeOp cfg s k v).1
    unfold writeOp
    cases keyCheck cfg k with
    | error e => exact h
    | ok pk => exact writeStreamWithLock_cacheInv cfg pk v h
  | writeFailK k st =>
    show cacheInv cfg (writeFailingOp cfg s k st).1
    unfold writeFailingOp
    cases keyCheck cfg k with
    | error e => exact h
    | ok pk =>
      simp only
      by_cases ht : cfg.useTempDir = true
      · rw [if_pos ht]; exact h
      · rw [if_neg ht]
        by_cases hc : canPlaceFile (mkdirAll s.fs (pathFor pk)) (completeFilename pk) = true
        · rw [if_pos hc]; exact h
        · rw [if_neg hc]; exact h
  | readK k =>
    show cacheInv cfg (readOp cfg s k).1
    unfold readOp
    cases lookupA s.cache k with
    | some v => exact h
    | none => exact readWithRLock_cacheInv cfg _ k h
  | readDirectK k =>
    show cacheInv cfg (readStreamDirectOp cfg s k).1
    unfold readStreamDirectOp
    have hb := bustC_spec k h.1
    exact readWithRLock_cacheInv cfg _ k ⟨hb.1, le_trans hb.2.1 h.2⟩
  | eraseK k =>
    show cacheInv cfg (eraseOp cfg s k).1
    unfold eraseOp
    have hb := bustC_spec k h.1
    have h1 : cacheInv cfg
        { s with cache := (bustC s.cache s.cacheSize k).1,
                 cacheSize := (bustC s.cache s.cacheSize k).2,
                 index := deleteIdx s.index k } := ⟨hb.1, le_trans hb.2.1 h.2⟩
    by_cases hd : completeFilename (transformK cfg k) ∈ s.fs.dirs
    · rw [if_pos hd]; exact h1
    · rw [if_neg hd]
      cases lookupA s.fs.files (completeFilename (transformK cfg k)) with
      | none => exact h1
      | some w => exact h1
  | eraseAllK =>
    show cacheInv cfg (eraseAllOp s).1
    exact ⟨⟨List.nodup_nil, rfl⟩, Nat.zero_le _⟩
  | importK src k mv ro =>
    show cacheInv cfg (importOp cfg s src k mv ro).1
    unfold importOp
    by_cases he : k = ""
    · rw [if_pos he]; exact h
    · rw [if_neg he]
      simp only
      by_cases hm : (mv && ro) = true
      · rw [if_pos hm]
        by_cases hc : canPlaceFile (mkdirAll s.fs (pathFor (transformK cfg k)))
            (completeFilename (transformK cfg k)) = true
        · rw [if_pos hc]
          have hb := bustC_spec k h.1
          exact ⟨hb.1, le_trans hb.2.1 h.2⟩
        · rw [if_neg hc]; exact h
      · rw [if_neg hm]
        exact writeStreamWithLock_cacheInv cfg _ src h

theorem applyOps_cacheInv (cfg : Config) {s : DState} (ops : List Op) (h : cacheInv cfg s) :
    cacheInv cfg (applyOps cfg s ops) := by
  induction ops generalizing s with
  | nil => exact h
  | cons op rest ih => exact ih (applyOp_cacheInv cfg op h)

theorem string_length_zero {s : String} : s.length = 0 ↔ s = "" := by
  cases s with
  | mk data =>
    constructor
    · intro h
      have hd : data = [] := List.length_eq_zero.mp h
      rw [hd]
    · intro h
      rw [h]
      decide

theorem lookupA_storeA_self {α β : Type} [DecidableEq α] (l : List (α × β)) (k : α) (v : β) :
    lookupA (storeA l k v) k = some v := by
  simp [storeA, lookupA]

theorem lookupA_bustC_self (c : Cache) (sz : Nat) (k : String) :
    lookupA (bustC c sz k).1 k = none := by
  cases hl : lookupA c k with
  | none => simp only [bustC, hl]
  | some v => simp only [bustC, hl]; exact lookupA_removeA_self c k

theorem writeOp_empty_case {cfg : Config} {s : DState} {k : String} {v : List Nat}
    (hk : k.length = 0) : writeOp cfg s k v = (s, .error .empty) := by
  unfold writeOp keyCheck
  rw [if_pos hk]

theorem writeOp_badKey_case {cfg : Config} {s : DState} {k : String} {v : List Nat}
    (hk : ¬ k.length = 0) (hb : illegalKey cfg k = true) :
    writeOp cfg s k v = (s, .error .badKey) := by
  unfold writeOp keyCheck
  rw [if_neg hk, if_pos hb]

theorem writeOp_valid_case {cfg : Config} {s : DState} {k : String} {v : List Nat}
    (hk : ¬ k.length = 0) (hb : ¬ illegalKey cfg k = true) :
    writeOp cfg s k v = writeStreamWithLock cfg s (transformK cfg k) v := by
  unfold writeOp keyCheck
  rw [if_neg hk, if_neg hb]

theorem writeStreamWithLock_error_io {cfg : Config} {s : DState} {pk : PathKey}
    {v : List Nat} {e : Err} (h : (writeStreamWithLock cfg s pk v).2 = .error e) :
    ∃ msg, e = .io msg := by
  unfold writeStreamWithLock at h
  by_cases hc : canPlaceFile (mkdirAll s.fs (pathFor pk)) (completeFilename pk) = true
  · rw [if_pos hc] at h; exact absurd h (by simp)
  · rw [if_neg hc] at h
    exact ⟨_, (by injection h with h; exact h.symm)⟩

theorem writeStreamWithLock_ok_case {cfg : Config} {s : DState} {pk : PathKey}
    {v : List Nat} (h : (writeStreamWithLock cfg s pk v).2 = .ok ()) :
    canPlaceFile (mkdirAll s.fs (pathFor pk)) (completeFilename pk) = true ∧
    writeStreamWithLock cfg s pk v =
      ({ fs := { dirs := (mkdirAll s.fs (pathFor pk)).dirs,
                 files := storeA (mkdirAll s.fs (pathFor pk)).files (completeFilename pk) v },
         cache := (bustC s.cache s.cacheSize pk.originalKey).1,
         cacheSize := (bustC s.cache s.cacheSize pk.originalKey).2,
         index := insertIdx s.index pk.originalKey }, .ok ()) := by
  by_cases hc : canPlaceFile (mkdirAll s.fs (pathFor pk)) (completeFilename pk) = true
  · refine ⟨hc, ?_⟩
    unfold writeStreamWithLock
    rw [if_pos hc]
  · exfalso
    unfold writeStreamWithLock at h
    rw [if_neg hc] at h
    injection h

theorem canPlaceFile_iff {fs : FS} {p : List String} :
    canPlaceFile fs p = true ↔ p ∉ fs.dirs ∧ p.dropLast ∈ fs.dirs := by
  simp [canPlaceFile]

theorem cacheM_inserted_of_fits {c : Cache} {sz mx : Nat} (k : String) {v : List Nat}
    (h : cacheWF c sz) (hf : v.length ≤ mx) :
    ∃ c2 sz2, cacheWithLockM c sz mx k v = .inserted c2 sz2 := by
  have hb := bustC_spec k h
  have he := evictLoop_spec (bustC c sz k).1 (bustC c sz k).2 mx v.length hb.1
  have hfit : (evictLoop (bustC c sz k).1 (bustC c sz k).2 mx v.length).2 + v.length ≤ mx := by
    rcases he.2.1 with h1 | h1
    · exact h1
    · have h2 : (evictLoop (bustC c sz k).1 (bustC c sz k).2 mx v.length).2 =
          sumLens (evictLoop (bustC c sz k).1 (bustC c sz k).2 mx v.length).1 := he.1.2
      rw [h1] at h2
      simp [sumLens] at h2
      omega
  unfold cacheWithLockM
  rw [if_neg (by omega), if_pos hfit]
  exact ⟨_, _, rfl⟩

theorem writeOp_ok_shape {cfg : Config} {s : DState} {k : String} {v : List Nat}
    (hw : (writeOp cfg s k v).2 = .ok ()) :
    canPlaceFile (mkdirAll s.fs (pathFor (transformK cfg k)))
        (completeFilename (transformK cfg k)) = true ∧
    writeOp cfg s k v =
      ({ fs := { dirs := (mkdirAll s.fs (pathFor (transformK cfg k))).dirs,
                 files := storeA (mkdirAll s.fs (pathFor (transformK cfg k))).files
                   (completeFilename (transformK cfg k)) v },
         cache := (bustC s.cache s.cacheSize k).1,
         cacheSize := (bustC s.cache s.cacheSize k).2,
         index := insertIdx s.index k }, .ok ()) := by
  by_cases hk : k.length = 0
  · rw [writeOp_empty_case hk] at hw; injection hw
  · by_cases hb : illegalKey cfg k = true
    · rw [writeOp_badKey_case hk hb] at hw; injection hw
    · rw [writeOp_valid_case hk hb] at hw
      rw [writeOp_valid_case hk hb]
      exact writeStreamWithLock_ok_case hw

theorem readOp_installs {cfg : Config} {s : DState} {k : String} {v : List Nat}
    (hmiss : lookupA s.cache k = none)
    (hd : completeFilename (transformK cfg k) ∉ s.fs.dirs)
    (hf : lookupA s.fs.files (completeFilename (transformK cfg k)) = some v)
    (hz : ¬ cfg.cacheSizeMax = 0)
    (hwf : cacheWF s.cache s.cacheSize) (hlen : v.length ≤ cfg.cacheSizeMax) :
    lookupA (readOp cfg s k).1.cache k = some v := by
  obtain ⟨c2, sz2, hr⟩ := cacheM_inserted_of_fits k hwf hlen
  have hins := cacheM_inserted_spec hwf hr
  simp only [readOp, readWithRLock, hmiss, hf, hr, if_neg hd, if_neg hz]
  exact hins.2.2

theorem readOp_zero_cache {cfg : Config} (hz : cfg.cacheSizeMax = 0) (s2 : DState)
    (k2 : String) : (readOp cfg s2 k2).1 = s2 := by
  unfold readOp readWithRLock
  cases hl : lookupA s2.cache k2 with
  | some v => rfl
  | none =>
    simp only [hz, reduceIte]
    split
    · rfl
    · split
      · rfl
      · rfl

/-- C2: after every completed engine operation, and hence at every
point of every operation sequence starting from the freshly constructed
engine, the cache bookkeeping invariant holds: cacheSize equals the sum
of the lengths of the cached values (with distinct cached keys), and
cacheSize is at most CacheSizeMax. -/
theorem cache_invariant_all_ops (cfg : Config) (ops : List Op) :
    cacheInv cfg (applyOps cfg initState ops) :=
  applyOps_cacheInv cfg ops ⟨⟨List.nodup_nil, rfl⟩, Nat.zero_le _⟩

/-- C6: WriteStream's validation returns Empty exactly for the empty
key and BadKey exactly for a nonempty key whose transformed path has a
segment containing the OS path separator or whose transformed filename
contains the OS path-list separator; both failures happen before any
side effect on the engine state. -/
theorem writeStream_validation (cfg : Config) (s : DState) (k : String) (v : List Nat) :
    ((writeOp cfg s k v).2 = .error .empty ↔ k = "") ∧
    ((writeOp cfg s k v).2 = .error .badKey ↔ k ≠ "" ∧ illegalKey cfg k = true) ∧
    ((writeOp cfg s k v).2 = .error .empty ∨ (writeOp cfg s k v).2 = .error .badKey →
      (writeOp cfg s k v).1 = s) := by
  by_cases hk : k.length = 0
  · have hke : k = "" := string_length_zero.mp hk
    rw [writeOp_empty_case hk]
    refine ⟨by simp [hke], ?_, fun _ => rfl⟩
    constructor
    · intro hcontra; exact absurd (by injection hcontra) (by simp)
    · rintro ⟨hne, _⟩; exact absurd hke hne
  · have hkne : k ≠ "" := fun he => hk (string_length_zero.mpr he)
    by_cases hb : illegalKey cfg k = true
    · rw [writeOp_badKey_case hk hb]
      refine ⟨?_, by simp [hkne, hb], fun _ => rfl⟩
      constructor
      · intro hcontra; exact absurd (by injection hcontra) (by simp)
      · intro hke; exact absurd hke hkne
    · rw [writeOp_valid_case hk hb]
      refine ⟨?_, ?_, ?_⟩
      · constructor
        · intro hcontra
          obtain ⟨msg, hmsg⟩ := writeStreamWithLock_error_io hcontra
          exact Err.noConfusion hmsg
        · intro hke; exact absurd hke hkne
      · constructor
        · intro hcontra
          obtain ⟨msg, hmsg⟩ := writeStreamWithLock_error_io hcontra
          exact Err.noConfusion hmsg
        · rintro ⟨_, hb2⟩; exact absurd hb2 hb
      · rintro (hcontra | hcontra) <;>
          · obtain ⟨msg, hmsg⟩ := writeStreamWithLock_error_io hcontra
            exact absurd hmsg (by simp)

theorem importOp_copy_ok_index {cfg : Config} {s : DState} {src : List Nat} {k : String}
    (h : (importOp cfg s src k false false).2 = .ok ()) :
    (importOp cfg s src k false false).1.index = insertIdx s.index k := by
  unfold importOp at h ⊢
  by_cases he : k = ""
  · rw [if_pos he] at h; injection h
  · rw [if_neg he] at h ⊢
    rw [if_neg (show ¬((false && false) = true) from by decide)] at h ⊢
    have := writeStreamWithLock_ok_case h
    rw [this.2]
    rfl

theorem importOp_move_ok_index {cfg : Config} {s : DState} {src : List Nat} {k : String}
    (h : (importOp cfg s src k true true).2 = .ok ()) :
    (importOp cfg s src k true true).1.index = s.index := by
  unfold importOp at h ⊢
  by_cases he : k = ""
  · rw [if_pos he] at h; injection h
  · rw [if_neg he] at h ⊢
    rw [if_pos (show ((true && true) = true) from rfl)] at h ⊢
    by_cases hc : canPlaceFile (mkdirAll s.fs (pathFor (transformK cfg k)))
        (completeFilename (transformK cfg k)) = true
    · rw [if_pos hc]
    · rw [if_neg hc] at h; injection h

theorem eraseOp_index (cfg : Config) (s : DState) (k : String) :
    (eraseOp cfg s k).1.index = deleteIdx s.index k := by
  simp only [eraseOp]
  split
  · rfl
  · split
    · rfl
    · rfl

/-- C5: cache population is read-triggered, not write-triggered: after
a successful Write the key is absent from the cache; with a positive
CacheSizeMax, the first subsequent fully drained Read installs the
written value into the cache through the siphon, provided its length
fits the budget; and with CacheSizeMax zero a Read never changes the
engine state (the cache in particular). -/
theorem cache_read_triggered (cfg : Config) (s : DState) (k : String) (v : List Nat)
    (hinv : cacheInv cfg s) (hw : (writeOp cfg s k v).2 = .ok ()) :
    lookupA (writeOp cfg s k v).1.cache k = none ∧
    (0 < cfg.cacheSizeMax → v.length ≤ cfg.cacheSizeMax →
      lookupA (readOp cfg (writeOp cfg s k v).1 k).1.cache k = some v) ∧
    (cfg.cacheSizeMax = 0 → ∀ s2 : DState, ∀ k2 : String, (readOp cfg s2 k2).1 = s2) := by
  obtain ⟨hcp, hshape⟩ := writeOp_ok_shape hw
  refine ⟨?_, ?_, fun hz s2 k2 => readOp_zero_cache hz s2 k2⟩
  · rw [hshape]
    exact lookupA_bustC_self s.cache s.cacheSize k
  · intro hpos hlen
    rw [hshape]
    apply readOp_installs
    · exact lookupA_bustC_self s.cache s.cacheSize k
    · exact (canPlaceFile_iff.mp hcp).1
    · exact lookupA_storeA_self _ _ _
    · omega
    · exact (bustC_spec k hinv.1).1
    · exact hlen

/-- Witness for C5: on a fresh engine with budget 1024, writing key "k"
leaves it uncached and the first Read installs its value. -/
theorem cache_read_triggered_witness :
    lookupA (writeOp cfg0 initState "k" [7]).1.cache "k" = none ∧
    lookupA (readOp cfg0 (writeOp cfg0 initState "k" [7]).1 "k").1.cache "k" = some [7] := by
  have h := cache_read_triggered cfg0 initState "k" [7]
    ⟨⟨List.nodup_nil, rfl⟩, Nat.zero_le _⟩ (by decide)
  exact ⟨h.1, h.2.1 (by decide) (by decide)⟩

/-- C3 counterexample: on a fresh engine whose index and disk agree
(both empty), a successful Import with move=true whose rename succeeds
stores the file on disk but does not insert the destination key into
the index, so the index no longer contains exactly the keys on disk. -/
theorem import_rename_skips_index :
    (importOp cfg0 initState [1] "k" true true).2 = .ok () ∧
    lookupA (importOp cfg0 initState [1] "k" true true).1.fs.files ["k"] = some [1] ∧
    "k" ∉ (importOp cfg0 initState [1] "k" true true).1.index := by decide

/-- C3 amended: immediately after a successful Write the written key
has been inserted into the index; after a successful Import that goes
through the stream-copy path the destination key has been inserted;
Erase always deletes the key from the index; but a successful Import
with move=true whose rename succeeds leaves the index unchanged (the
destination key is not inserted). -/
theorem index_mutation_per_op (cfg : Config) (s : DState) (k : String) (v src : List Nat)
    (hw : (writeOp cfg s k v).2 = .ok ())
    (hcopy : (importOp cfg s src k false false).2 = .ok ())
    (hmv : (importOp cfg s src k true true).2 = .ok ()) :
    (writeOp cfg s k v).1.index = insertIdx s.index k ∧
    (importOp cfg s src k false false).1.index = insertIdx s.index k ∧
    (importOp cfg s src k true true).1.index = s.index ∧
    (eraseOp cfg s k).1.index = deleteIdx s.index k := by
  refine ⟨?_, importOp_copy_ok_index hcopy, importOp_move_ok_index hmv,
    eraseOp_index cfg s k⟩
  rw [(writeOp_ok_shape hw).2]

/-- Witness for C3's amended statement on a fresh engine and key "k". -/
theorem index_mutation_per_op_witness :
    (writeOp cfg0 initState "k" [7]).1.index = insertIdx initState.index "k" ∧
    (importOp cfg0 initState [7] "k" false false).1.index = insertIdx initState.index "k" ∧
    (importOp cfg0 initState [7] "k" true true).1.index = initState.index ∧
    (eraseOp cfg0 initState "k").1.index = deleteIdx initState.index "k" :=
  index_mutation_per_op cfg0 initState "k" [7] [7] (by decide) (by decide) (by decide)

/-- Witness for C6: the key "a:b" (whose filename under the default
transform contains the path-list separator) is rejected with BadKey and
the engine state is untouched. -/
theorem writeStream_validation_witness :
    (writeOp cfg0 initState "a:b" [2]).2 = .error .badKey ∧
    (writeOp cfg0 initState "a:b" [2]).1 = initState := by
  have h := writeStream_validation cfg0 initState "a:b" [2]
  have hb : (writeOp cfg0 initState "a:b" [2]).2 = .error .badKey :=
    h.2.1.mpr ⟨by decide, by decide⟩
  exact ⟨hb, h.2.2 (Or.inr hb)⟩

theorem keyCheck_ok_eq {cfg : Config} {k : String} {pk : PathKey}
    (h : keyCheck cfg k = .ok pk) : pk = transformK cfg k := by
  unfold keyCheck at h
  by_cases hk : k.length = 0
  · rw [if_pos hk] at h; injection h
  · rw [if_neg hk] at h
    by_cases hb : illegalKey cfg k = true
    · rw [if_pos hb] at h; injection h
    · rw [if_neg hb] at h; injection h with h; exact h.symm

theorem keyCheck_error_cases {cfg : Config} {k : String} {e : Err}
    (h : keyCheck cfg k = .error e) : e = .empty ∨ e = .badKey := by
  unfold keyCheck at h
  by_cases hk : k.length = 0
  · rw [if_pos hk] at h; injection h with h; exact Or.inl h.symm
  · rw [if_neg hk] at h
    by_cases hb : illegalKey cfg k = true
    · rw [if_pos hb] at h; injection h with h; exact Or.inr h.symm
    · rw [if_neg hb] at h; injection h

theorem not_mem_removeL_self {α : Type} [DecidableEq α] (l : List α) (k : α) :
    k ∉ removeL l k := by
  induction l with
  | nil => simp [removeL]
  | cons a rest ih =>
    by_cases hak : a = k
    · rw [removeL, if_pos hak]; exact ih
    · rw [removeL, if_neg hak]
      intro hm
      rcases List.mem_cons.mp hm with h | h
      · exact hak h.symm
      · exact ih h

theorem mem_removeL_of_ne {α : Type} [DecidableEq α] {l : List α} {q p : α}
    (hq : q ∈ l) (hne : q ≠ p) : q ∈ removeL l p := by
  induction l with
  | nil => simp at hq
  | cons a rest ih =>
    rcases List.mem_cons.mp hq with h | h
    · subst h
      rw [removeL, if_neg (fun hap => hne hap)]
      exact List.mem_cons_self _ _
    · by_cases hap : a = p
      · rw [removeL, if_pos hap]; exact ih h
      · rw [removeL, if_neg hap]; exact List.mem_cons_of_mem a (ih h)

theorem pruneLoop_eq_spec : ∀ (fs : FS) (ps : List (List String)),
    (∀ p ∈ ps, p ∈ fs.dirs) → (∀ p ∈ ps, hasFileAt fs p = false) → ps.Nodup →
    (pruneLoop fs ps).1 = pruneSpecWalk fs ps
  | fs, [], _, _, _ => rfl
  | fs, p :: rest, hmem, hnf, hnd => by
    have hp : p ∈ fs.dirs := hmem p (List.mem_cons_self _ _)
    simp only [pruneLoop, pruneSpecWalk]
    rw [if_pos hp]
    by_cases hch : hasChild fs p = true
    · rw [if_pos hch, if_pos hch]
    · rw [if_neg hch, if_neg hch]
      have hpnr : p ∉ rest := (List.nodup_cons.mp hnd).1
      apply pruneLoop_eq_spec
      · intro q hq
        exact mem_removeL_of_ne (hmem q (List.mem_cons_of_mem _ hq))
          (fun h => hpnr (h ▸ hq))
      · intro q hq
        exact hnf q (List.mem_cons_of_mem _ hq)
      · exact (List.nodup_cons.mp hnd).2

theorem pruneLoop_base : ∀ (fs : FS) (ps : List (List String)),
    [] ∈ fs.dirs → (∀ p ∈ ps, p ≠ ([] : List String)) →
    [] ∈ (pruneLoop fs ps).1.dirs
  | _, [], hb, _ => hb
  | fs, p :: rest, hb, hne => by
    simp only [pruneLoop]
    by_cases hp : p ∈ fs.dirs
    · rw [if_pos hp]
      by_cases hch : hasChild fs p = true
      · rw [if_pos hch]; exact hb
      · rw [if_neg hch]
        apply pruneLoop_base
        · exact mem_removeL_of_ne hb
            (fun h => hne p (List.mem_cons_self _ _) h.symm)
        · intro q hq; exact hne q (List.mem_cons_of_mem _ hq)
    · rw [if_neg hp]
      by_cases hf : hasFileAt fs p = true
      · rw [if_pos hf]; exact hb
      · rw [if_neg hf]; exact hb

theorem eraseOp_ok_shape {cfg : Config} {s : DState} {k : String}
    (hok : (eraseOp cfg s k).2 = .ok ()) :
    (eraseOp cfg s k).1.fs =
      (pruneLoop (removeFileFS s.fs (completeFilename (transformK cfg k)))
        (prunePrefixes (transformK cfg k).path)).1 := by
  unfold eraseOp at hok ⊢
  by_cases hd : completeFilename (transformK cfg k) ∈ s.fs.dirs
  · rw [if_pos hd] at hok; injection hok
  · rw [if_neg hd] at hok ⊢
    cases hf : lookupA s.fs.files (completeFilename (transformK cfg k)) with
    | none => rw [hf] at hok; injection hok
    | some w => rfl

/-- C1 (refuted at a concrete input): under the default transform the
key "a/a" passes the legality checks of WriteStream — the filename is
only checked against the OS path-list separator — yet Write fails with
the wrapped open error because the parent directory of the joined path
never exists, and the subsequent Read fails with the stat error, so
Write-then-Read does not return the written value for every
legality-passing key. -/
theorem roundtrip_fails_on_separator_key :
    keyCheck cfg0 "a/a" = .ok (transformK cfg0 "a/a") ∧
    (writeOp cfg0 initState "a/a" [49]).2 = .error (.io "open file") ∧
    (readOp cfg0 (writeOp cfg0 initState "a/a" [49]).1 "a/a").2 = .error (.io "stat") := by
  decide

/-- C7 (refuted at the claimed input): Write("a/a") under the default
transform is not rejected with BadKey — contrary to the repository's
own TestBadKeys — and instead fails with the wrapped open error; no
file is stored. -/
theorem write_slash_key_not_badKey :
    (writeOp cfg0 initState "a/a" [49]).2 ≠ .error .badKey ∧
    (writeOp cfg0 initState "a/a" [49]).2 = .error (.io "open file") ∧
    (writeOp cfg0 initState "a/a" [49]).1.fs.files = [] := by
  decide

/-- C4 (refuted at the claimed inputs): over the tree with keys a, b,
c, x, y, z ordered by byte-wise less, Keys("", 99) does return all six
keys in order, but Keys("b", 99) restarts at the smallest key and
returns all six (a member cursor is not skipped), while Keys("bb", 99)
drops the first key greater than the absent cursor and returns only
["x","y","z"] instead of ["c","x","y","z"]. -/
theorem btree_keys_member_semantics :
    btreeIndexKeys strLess ["a", "b", "c", "x", "y", "z"] "" 99 =
      ["a", "b", "c", "x", "y", "z"] ∧
    btreeIndexKeys strLess ["a", "b", "c", "x", "y", "z"] "b" 99 =
      ["a", "b", "c", "x", "y", "z"] ∧
    btreeIndexKeys strLess ["a", "b", "c", "x", "y", "z"] "bb" 99 =
      ["x", "y", "z"] := by
  decide

/-- C9: Erase of a key with no file (and no directory) at its path
returns the stat error, yet has already removed the key from the cache
and deleted it from the index; the filesystem itself is untouched. -/
theorem erase_error_still_mutates (cfg : Config) (s : DState) (k : String)
    (hnf : lookupA s.fs.files (completeFilename (transformK cfg k)) = none)
    (hnd : completeFilename (transformK cfg k) ∉ s.fs.dirs) :
    (eraseOp cfg s k).2 = .error (.io "stat") ∧
    lookupA (eraseOp cfg s k).1.cache k = none ∧
    k ∉ (eraseOp cfg s k).1.index ∧
    (eraseOp cfg s k).1.cache = (bustC s.cache s.cacheSize k).1 ∧
    (eraseOp cfg s k).1.index = deleteIdx s.index k ∧
    (eraseOp cfg s k).1.fs = s.fs := by
  have hshape : eraseOp cfg s k =
      ({ s with cache := (bustC s.cache s.cacheSize k).1,
                cacheSize := (bustC s.cache s.cacheSize k).2,
                index := deleteIdx s.index k }, .error (.io "stat")) := by
    unfold eraseOp
    rw [if_neg hnd, hnf]
  rw [hshape]
  exact ⟨rfl, lookupA_bustC_self s.cache s.cacheSize k,
    not_mem_removeL_self s.index k, rfl, rfl, rfl⟩

/-- Witness for C9: a state holding key "k" in cache and index but with
no file on disk; Erase fails yet both are cleared. -/
theorem erase_error_still_mutates_witness :
    (eraseOp cfg0 { fs := { dirs := [[]], files := [] }, cache := [("k", [1])], cacheSize := 1, index := ["k"] } "k").2 = .error (.io "stat") ∧
    lookupA (eraseOp cfg0 { fs := { dirs := [[]], files := [] }, cache := [("k", [1])], cacheSize := 1, index := ["k"] } "k").1.cache "k" = none ∧
    "k" ∉ (eraseOp cfg0 { fs := { dirs := [[]], files := [] }, cache := [("k", [1])], cacheSize := 1, index := ["k"] } "k").1.index := by
  have h := erase_error_still_mutates cfg0
    { fs := { dirs := [[]], files := [] }, cache := [("k", [1])], cacheSize := 1, index := ["k"] } "k" (by decide) (by decide)
  exact ⟨h.1, h.2.1, h.2.2.1⟩

theorem writeFailingOp_valid_case {cfg : Config} {s : DState} {k : String}
    {st : WriteFailStage} (hk : ¬ k.length = 0) (hb : ¬ illegalKey cfg k = true) :
    writeFailingOp cfg s k st =
      (if cfg.useTempDir = true then
        ({ s with fs := mkdirAll s.fs (pathFor (transformK cfg k)) },
         .error (.io (stageMsg st)))
       else if canPlaceFile (mkdirAll s.fs (pathFor (transformK cfg k)))
           (completeFilename (transformK cfg k)) = true then
         ({ s with fs := removeFileFS (mkdirAll s.fs (pathFor (transformK cfg k))) (completeFilename (transformK cfg k)) }, .error (.io (stageMsg st)))
       else ({ s with fs := mkdirAll s.fs (pathFor (transformK cfg k)) },
         .error (.io "open file"))) := by
  unfold writeFailingOp keyCheck
  rw [if_neg hk, if_neg hb]
  rfl

/-- C10: with TempDir unset, a failure of the byte pipeline after the
key file was opened (streaming the caller's reader, closing the
compression writer, or fsync) removes the file at the final destination
path, so any previously stored value for the key is destroyed by the
failed write rather than left intact. -/
theorem failed_write_removes_destination (cfg : Config) (s : DState) (k : String)
    (st : WriteFailStage) (htd : cfg.useTempDir = false)
    (hfail : (writeFailingOp cfg s k st).2 = .error (.io (stageMsg st))) :
    lookupA (writeFailingOp cfg s k st).1.fs.files
      (completeFilename (transformK cfg k)) = none := by
  by_cases hk : k.length = 0
  · have hsh : writeFailingOp cfg s k st = (s, .error .empty) := by
      unfold writeFailingOp keyCheck
      rw [if_pos hk]
    rw [hsh] at hfail
    injection hfail with hfail
    exact absurd hfail (by simp)
  · by_cases hb : illegalKey cfg k = true
    · have hsh : writeFailingOp cfg s k st = (s, .error .badKey) := by
        unfold writeFailingOp keyCheck
        rw [if_neg hk, if_pos hb]
      rw [hsh] at hfail
      injection hfail with hfail
      exact absurd hfail (by simp)
    · have hsh := @writeFailingOp_valid_case cfg s k st hk hb
      have ht : ¬ cfg.useTempDir = true := by rw [htd]; decide
      rw [hsh, if_neg ht] at hfail ⊢
      by_cases hc : canPlaceFile (mkdirAll s.fs (pathFor (transformK cfg k)))
          (completeFilename (transformK cfg k)) = true
      · rw [if_pos hc]
        exact lookupA_removeA_self _ _
      · rw [if_neg hc] at hfail
        injection hfail with hfail
        injection hfail with hfail
        cases st <;> exact absurd hfail (by decide)

/-- Witness for C10: after storing [1] under "k", a copy failure during
a second write leaves no file at the destination. -/
theorem failed_write_removes_destination_witness :
    lookupA (writeFailingOp cfg0 (writeOp cfg0 initState "k" [1]).1 "k"
      WriteFailStage.copyErr).1.fs.files
      (completeFilename (transformK cfg0 "k")) = none :=
  failed_write_removes_destination cfg0 (writeOp cfg0 initState "k" [1]).1 "k"
    WriteFailStage.copyErr (by decide) (by decide)

/-- C8 counterexample: under a transform with the non-empty path
["", "a"], Write of key "f" succeeds (both segments pass the separator
checks; the file lands at a/f) and a subsequent successful Erase prunes
the now-empty directory a and then visits the join of the first
segment, which cleans to the base directory itself, finds it empty and
removes it — so "the base directory itself is never removed" fails for
a key whose transform has a non-empty path. -/
theorem erase_prune_removes_base :
    (writeOp cfgBase initState "f" [1]).2 = .ok () ∧
    (eraseOp cfgBase (writeOp cfgBase initState "f" [1]).1 "f").2 = .ok () ∧
    (transformK cfgBase "f").path ≠ [] ∧
    ([] : List String) ∈ (writeOp cfgBase initState "f" [1]).1.fs.dirs ∧
    ([] : List String) ∉
      (eraseOp cfgBase (writeOp cfgBase initState "f" [1]).1 "f").1.fs.dirs := by
  decide

/-- C8 as amended: after a successful Erase of a key whose transform
has a non-empty path, provided the visited prune directories (the
cleaned joins of the non-empty prefixes of the raw path) exist on disk,
are distinct, hold no regular file, and none of them resolves to the
base directory itself, the resulting filesystem is exactly the
spec-side pruning walk over those directories applied to the
post-removal filesystem — deepest to shallowest, each empty directory
removed, stopping at the first non-empty one — and the base directory
survives.  Without the last proviso the base can be removed, as the
counterexample shows. -/
theorem erase_prunes_dirs (cfg : Config) (s : DState) (k : String)
    (_hne : (transformK cfg k).path ≠ [])
    (hok : (eraseOp cfg s k).2 = .ok ())
    (hmem : ∀ p ∈ prunePrefixes (transformK cfg k).path, p ∈ s.fs.dirs)
    (hnf : ∀ p ∈ prunePrefixes (transformK cfg k).path,
      hasFileAt (removeFileFS s.fs (completeFilename (transformK cfg k))) p = false)
    (hnd : (prunePrefixes (transformK cfg k).path).Nodup)
    (hnb : ∀ p ∈ prunePrefixes (transformK cfg k).path, p ≠ ([] : List String)) :
    (eraseOp cfg s k).1.fs =
      pruneSpecWalk (removeFileFS s.fs (completeFilename (transformK cfg k)))
        (prunePrefixes (transformK cfg k).path) ∧
    ([] ∈ s.fs.dirs → [] ∈ (eraseOp cfg s k).1.fs.dirs) := by
  have hshape := eraseOp_ok_shape hok
  constructor
  · rw [hshape]
    exact pruneLoop_eq_spec _ _ hmem hnf hnd
  · intro hb
    rw [hshape]
    exact pruneLoop_base _ _ hb hnb

/-- Witness for C8: with a transform nesting keys under d1/d2, erasing
the last key removes both now-empty directories and the base directory
survives. -/
theorem erase_prunes_dirs_witness :
    ([] : List String) ∈
      (eraseOp cfgNest (writeOp cfgNest initState "f" [1]).1 "f").1.fs.dirs :=
  (erase_prunes_dirs cfgNest (writeOp cfgNest initState "f" [1]).1 "f"
    (by decide) (by decide) (by decide) (by decide) (by decide) (by decide)).2
    (by decide)


end Diskv
